import Mathlib

/-!
# Verification of the code-retrieval engine spec and the ggf-mini-game systems

This development shallowly embeds two parts of the repository:

* the retrieval core (BM25 index and scorer, Reciprocal Rank Fusion,
  fixed-window chunking, retrieval metrics).  The Python implementation
  under `solution/src/ggf_case/` is not part of the source tree here (only
  its check scripts and documentation are), so these definitions are
  modelled from the spec (sections 4.1, 4.2, 4.3, 4.4 of `spec.md`), with
  each definition's doc comment naming what is missing;
* the TypeScript mini-game state systems (`ggf-mini-game/src`): game state,
  reducer, pause, score, enemy AI and save/load, translated from the
  TypeScript source.  JavaScript numbers are modelled as real numbers.
-/

namespace Rag

/-! ## Reciprocal Rank Fusion (spec section 4.3)

Modelled from the spec: `solution/src/ggf_case/rag/hybrid.py`
(`reciprocal_rank_fusion`) is absent from the source tree.  A strategy's
ranked list is the list of chunk identifiers it returned, in rank order
(1-based rank = list position + 1). -/

/-- Modelled from the spec: the rank of chunk `c` within one strategy's
ranked list, as `some (position + 1)` for the first occurrence, or `none`
when the list does not contain `c`. -/
def rankIn (l : List String) (c : String) : Option Nat :=
  match l with
  | [] => none
  | x :: xs => if x = c then some 1 else (rankIn xs c).map (· + 1)

/-- Modelled from the spec: the standard RRF constant, `k_rrf = 60`. -/
def kRRF : ℚ := 60

/-- Modelled from the spec: one strategy's contribution to the fused score
of chunk `c`: `1 / (k_rrf + rank)` when the strategy's list contains `c`,
and nothing (zero) when it does not. -/
def rrfContribution (kr : ℚ) (l : List String) (c : String) : ℚ :=
  match rankIn l c with
  | some r => 1 / (kr + r)
  | none => 0

/-- Modelled from the spec: `RRF_score(c) = Σ_strategy 1 / (k_rrf +
rank_strategy(c))`, summed over the strategies' ranked lists; a chunk
absent from a strategy's list contributes nothing for that strategy. -/
def reciprocal_rank_fusion (kr : ℚ) (lists : List (List String)) (c : String) : ℚ :=
  (lists.map (fun l => rrfContribution kr l c)).sum

lemma rankIn_eq_none_of_not_mem {l : List String} {c : String} (h : c ∉ l) :
    rankIn l c = none := by
  induction l with
  | nil => rfl
  | cons x xs ih =>
    simp only [List.mem_cons, not_or] at h
    simp only [rankIn, if_neg (fun hx : x = c => h.1 hx.symm), ih h.2, Option.map_none']

lemma rrfContribution_of_not_mem {l : List String} {c : String} (h : c ∉ l) (kr : ℚ) :
    rrfContribution kr l c = 0 := by
  unfold rrfContribution
  rw [rankIn_eq_none_of_not_mem h]

/-- The fused score only collects contributions from strategies whose list
contains the chunk. -/
lemma reciprocal_rank_fusion_eq_sum_filter (kr : ℚ) (lists : List (List String)) (c : String) :
    reciprocal_rank_fusion kr lists c =
      ((lists.filter (fun l => c ∈ l)).map (fun l => rrfContribution kr l c)).sum := by
  induction lists with
  | nil => rfl
  | cons l ls ih =>
    simp only [reciprocal_rank_fusion] at ih ⊢
    by_cases h : c ∈ l
    · simp [List.filter_cons, h, ih]
    · simp [List.filter_cons, h, rrfContribution_of_not_mem h, ih]

lemma rankIn_ge_one {l : List String} {c : String} {r : Nat} (h : rankIn l c = some r) :
    1 ≤ r := by
  induction l generalizing r with
  | nil => exact absurd h (by simp [rankIn])
  | cons x xs ih =>
    by_cases hx : x = c
    · simp only [rankIn, if_pos hx, Option.some.injEq] at h
      omega
    · simp only [rankIn, if_neg hx, Option.map_eq_some'] at h
      obtain ⟨a, _, rfl⟩ := h
      omega

lemma rrfContribution_nonneg (l : List String) (c : String) :
    0 ≤ rrfContribution kRRF l c := by
  unfold rrfContribution
  cases rankIn l c with
  | none => exact le_refl 0
  | some r =>
    simp only [kRRF]
    positivity

lemma rrf_nonneg (ss : List (List String)) (c : String) :
    0 ≤ reciprocal_rank_fusion kRRF ss c := by
  induction ss with
  | nil => exact le_refl 0
  | cons l ls ih =>
    simpa [reciprocal_rank_fusion] using
      add_nonneg (rrfContribution_nonneg l c)
        (by simpa [reciprocal_rank_fusion] using ih)

lemma rrf_eq_zero_of_all_not_mem {ss : List (List String)} {c : String}
    (h : ∀ l ∈ ss, c ∉ l) : reciprocal_rank_fusion kRRF ss c = 0 := by
  induction ss with
  | nil => rfl
  | cons l ls ih =>
    simp only [reciprocal_rank_fusion, List.map_cons, List.sum_cons]
    rw [rrfContribution_of_not_mem (h l (by simp)) kRRF]
    simpa [reciprocal_rank_fusion] using ih (fun l' hl' => h l' (by simp [hl']))

lemma rrfContribution_head_eq {l : List String} {x : String}
    (h : l.head? = some x) : rrfContribution kRRF l x = 1 / 61 := by
  cases l with
  | nil => simp at h
  | cons a as =>
    simp only [List.head?_cons, Option.some.injEq] at h
    subst h
    simp only [rrfContribution, rankIn, if_pos rfl, kRRF]
    norm_num

lemma rrfContribution_le_of_head_ne {l : List String} {x y : String}
    (h : l.head? = some x) (hxy : y ≠ x) :
    rrfContribution kRRF l y ≤ 1 / 62 := by
  cases l with
  | nil => simp at h
  | cons a as =>
    simp only [List.head?_cons, Option.some.injEq] at h
    subst h
    have hne : ¬(a = y) := fun hc => hxy hc.symm
    simp only [rrfContribution, rankIn, if_neg hne]
    cases hr : rankIn as y with
    | none => simp [hr]
    | some r =>
      have h1 : 1 ≤ r := rankIn_ge_one hr
      have h1q : (1 : ℚ) ≤ (r : ℚ) := by exact_mod_cast h1
      simp only [hr, Option.map_some', kRRF]
      rw [div_le_div_iff₀ (by push_cast; linarith) (by norm_num)]
      push_cast
      linarith

lemma rrf_le_of_single_strategy {ss : List (List String)} {x y : String}
    (hx : ∀ l ∈ ss, l.head? = some x)
    (hy1 : (ss.filter (fun l => y ∈ l)).length = 1) (hxy : y ≠ x) :
    reciprocal_rank_fusion kRRF ss y ≤ 1 / 62 := by
  induction ss with
  | nil => simp at hy1
  | cons l ls ih =>
    simp only [reciprocal_rank_fusion, List.map_cons, List.sum_cons]
    by_cases hm : y ∈ l
    · rw [List.filter_cons_of_pos (by simpa using hm)] at hy1
      simp only [List.length_cons] at hy1
      have hy0 : (ls.filter (fun l => y ∈ l)).length = 0 := by omega
      have htail : ∀ l' ∈ ls, y ∉ l' := by
        intro l' hl' hmem
        have hmemf : l' ∈ ls.filter (fun l => y ∈ l) := by
          simp [List.mem_filter, hl', hmem]
        rw [List.length_eq_zero.mp hy0] at hmemf
        simp at hmemf
      have h0 : reciprocal_rank_fusion kRRF ls y = 0 :=
        rrf_eq_zero_of_all_not_mem htail
      simp only [reciprocal_rank_fusion] at h0
      rw [h0, add_zero]
      exact rrfContribution_le_of_head_ne (hx l (by simp)) hxy
    · rw [List.filter_cons_of_neg (by simpa using hm)] at hy1
      rw [rrfContribution_of_not_mem hm, zero_add]
      exact ih (fun l' hl' => hx l' (by simp [hl'])) hy1

lemma rrf_ge_of_head_all {ss : List (List String)} {x : String}
    (hne : ss ≠ []) (hx : ∀ l ∈ ss, l.head? = some x) :
    1 / 61 ≤ reciprocal_rank_fusion kRRF ss x := by
  cases ss with
  | nil => exact absurd rfl hne
  | cons l ls =>
    simp only [reciprocal_rank_fusion, List.map_cons, List.sum_cons]
    rw [rrfContribution_head_eq (hx l (by simp))]
    have := rrf_nonneg ls x
    simp only [reciprocal_rank_fusion] at this
    linarith

end Rag

/-- C7: in every RRF fusion, a chunk retrieved at rank 1 by every active
strategy receives a strictly higher fused score than any other chunk that
appears in only one strategy's list, at any rank there. -/
theorem C7_rrf_rank_one_dominates (ss : List (List String)) (x y : String)
    (hne : ss ≠ []) (hx : ∀ l ∈ ss, l.head? = some x)
    (hy1 : (ss.filter (fun l => y ∈ l)).length = 1) (hxy : y ≠ x) :
    Rag.reciprocal_rank_fusion Rag.kRRF ss y <
      Rag.reciprocal_rank_fusion Rag.kRRF ss x := by
  have h1 := Rag.rrf_le_of_single_strategy hx hy1 hxy
  have h2 := Rag.rrf_ge_of_head_all hne hx
  have : (1 : ℚ) / 62 < 1 / 61 := by norm_num
  linarith

/-- Witness for C7 at a concrete one-strategy fusion. -/
theorem C7_rrf_rank_one_dominates_witness :
    Rag.reciprocal_rank_fusion Rag.kRRF [["P", "Q"]] "Q" <
      Rag.reciprocal_rank_fusion Rag.kRRF [["P", "Q"]] "P" :=
  C7_rrf_rank_one_dominates [["P", "Q"]] "P" "Q" (by simp)
    (by intro l hl; simp at hl; simp [hl]) (by decide) (by decide)

namespace Rag

/-! ## Retrieval metrics (spec section 4.4)

Modelled from the spec: `solution/src/ggf_case/metrics/retrieval_metrics.py`
is absent from the source tree.  A ranked result list is the list of
returned chunk identifiers in rank order, and a gold label is the set of
relevant chunk identifiers. -/

/-- Modelled from the spec: the number of distinct relevant chunk ids among
the top-k results, `card ({top-k chunk_ids} ∩ gold)`. -/
def topKHits (ranked : List String) (gold : Finset String) (k : ℕ) : ℕ :=
  ((ranked.take k).toFinset ∩ gold).card

/-- Modelled from the spec: `precision_at_k(ranked, gold, k)` =
`card ({top-k chunk_ids} ∩ gold) / k`, dividing by `k` even when fewer
than `k` results were returned. -/
def precision_at_k (ranked : List String) (gold : Finset String) (k : ℕ) : ℚ :=
  topKHits ranked gold k / k

/-- Modelled from the spec: `recall_at_k(ranked, gold, k)` =
`card ({top-k chunk_ids} ∩ gold) / card gold`, reported as 0 (not an
error) when the gold set is empty. -/
def recall_at_k (ranked : List String) (gold : Finset String) (k : ℕ) : ℚ :=
  if gold.card = 0 then 0 else topKHits ranked gold k / gold.card

lemma topKHits_le_k (ranked : List String) (gold : Finset String) (k : ℕ) :
    topKHits ranked gold k ≤ k := by
  calc ((ranked.take k).toFinset ∩ gold).card
      ≤ (ranked.take k).toFinset.card := Finset.card_le_card Finset.inter_subset_left
    _ ≤ (ranked.take k).length := (ranked.take k).toFinset_card_le
    _ ≤ k := by simp [List.length_take]

lemma topKHits_le_gold (ranked : List String) (gold : Finset String) (k : ℕ) :
    topKHits ranked gold k ≤ gold.card :=
  Finset.card_le_card Finset.inter_subset_right

end Rag

/-- C4: precision@k divides the top-k relevant-hit count by k (even when
fewer than k results were returned), recall@k divides it by the gold-set
size and is reported as 0 when the gold set is empty, and both metrics lie
in the interval from 0 to 1 whenever k is at least 1. -/
theorem C4_precision_recall_at_k (ranked : List String) (gold : Finset String)
    (k : ℕ) (hk : 1 ≤ k) :
    Rag.precision_at_k ranked gold k = Rag.topKHits ranked gold k / k ∧
    (ranked.length ≤ k →
      Rag.precision_at_k ranked gold k = (ranked.toFinset ∩ gold).card / k) ∧
    (gold = ∅ → Rag.recall_at_k ranked gold k = 0) ∧
    (gold ≠ ∅ →
      Rag.recall_at_k ranked gold k = Rag.topKHits ranked gold k / gold.card) ∧
    0 ≤ Rag.precision_at_k ranked gold k ∧ Rag.precision_at_k ranked gold k ≤ 1 ∧
    0 ≤ Rag.recall_at_k ranked gold k ∧ Rag.recall_at_k ranked gold k ≤ 1 := by
  have hkq : (0 : ℚ) < k := by exact_mod_cast hk
  refine ⟨rfl, ?_, ?_, ?_, ?_, ?_, ?_, ?_⟩
  · intro hlen
    simp [Rag.precision_at_k, Rag.topKHits, List.take_of_length_le hlen]
  · intro h
    simp [Rag.recall_at_k, h]
  · intro h
    rw [Rag.recall_at_k, if_neg (by simpa [Finset.card_eq_zero] using h)]
  · rw [Rag.precision_at_k]
    positivity
  · rw [Rag.precision_at_k, div_le_one hkq]
    exact_mod_cast Rag.topKHits_le_k ranked gold k
  · rw [Rag.recall_at_k]
    split
    · exact le_refl 0
    · positivity
  · rw [Rag.recall_at_k]
    split
    · exact zero_le_one
    · rename_i h
      have hg : (0 : ℚ) < gold.card := by
        have : 0 < gold.card := Nat.pos_of_ne_zero h
        exact_mod_cast this
      rw [div_le_one hg]
      exact_mod_cast Rag.topKHits_le_gold ranked gold k

/-- Witness for C4 on the spec's worked scenario: five results, two of the
three gold chunks returned. -/
theorem C4_precision_recall_at_k_witness :
    0 ≤ Rag.precision_at_k ["a", "b", "c", "d", "e"] {"a", "d", "x"} 5 ∧
      Rag.precision_at_k ["a", "b", "c", "d", "e"] {"a", "d", "x"} 5 ≤ 1 ∧
      Rag.precision_at_k ["a", "b", "c", "d", "e"] {"a", "d", "x"} 5 = 2 / 5 ∧
      Rag.recall_at_k ["a", "b", "c", "d", "e"] {"a", "d", "x"} 5 = 2 / 3 := by
  have h := C4_precision_recall_at_k ["a", "b", "c", "d", "e"] {"a", "d", "x"} 5
    (by norm_num)
  refine ⟨h.2.2.2.2.1, h.2.2.2.2.2.1, ?_, ?_⟩
  · have hhits : Rag.topKHits ["a", "b", "c", "d", "e"] {"a", "d", "x"} 5 = 2 := by
      decide
    rw [h.1, hhits]
    norm_num
  · have hcard : ({"a", "d", "x"} : Finset String) ≠ ∅ := by decide
    have hhits : Rag.topKHits ["a", "b", "c", "d", "e"] {"a", "d", "x"} 5 = 2 := by
      decide
    rw [h.2.2.2.1 hcard, hhits]
    have hc3 : ({"a", "d", "x"} : Finset String).card = 3 := by decide
    rw [hc3]
    norm_num

namespace Rag

/-! ## Fixed-strategy chunking (spec section 4.1)

Modelled from the spec: `solution/src/ggf_case/rag/indexer.py` is absent
from the source tree.  The fixed strategy slides a window of `w` lines
across an `n`-line file, advancing by `w - o` lines; the last chunk may be
shorter than the window.  A chunk is a 1-based inclusive line range. -/

/-- Modelled from the spec: the sliding-window loop.  From start line `s`
it emits the chunk `(s, min (s + w - 1) n)` and advances by `step` while
`s ≤ n`.  The structural `fuel` argument only bounds the recursion; any
`fuel` with `n + 1 ≤ s + fuel` lets the `s ≤ n` guard terminate the loop
exactly as the loop in the spec does (the guard also stops degenerate
configurations with `step = 0`, which would not terminate). -/
def slideWindow (w step n : ℕ) (s : ℕ) : ℕ → List (ℕ × ℕ)
  | 0 => []
  | fuel + 1 =>
    if s ≤ n ∧ 0 < step then
      (s, min (s + w - 1) n) :: slideWindow w step n (s + step) fuel
    else []

/-- Modelled from the spec: fixed-strategy chunking of an `n`-line file
with window size `w` and overlap `o` (defaults 60 and 10): slide a window
of `w` lines advancing by `w - o` lines. -/
def fixedChunks (w o n : ℕ) : List (ℕ × ℕ) :=
  slideWindow w (w - o) n 1 n

/-- Line `ℓ` lies inside the chunk's 1-based inclusive line range. -/
def coversLine (c : ℕ × ℕ) (ℓ : ℕ) : Bool :=
  c.1 ≤ ℓ && ℓ ≤ c.2

/-- The chunks of a fixed chunking that contain line `ℓ`, in file order. -/
def coveringChunks (w o n ℓ : ℕ) : List (ℕ × ℕ) :=
  (fixedChunks w o n).filter (fun c => coversLine c ℓ)

lemma slideWindow_start_ge (w step n : ℕ) :
    ∀ fuel s, ∀ c ∈ slideWindow w step n s fuel, s ≤ c.1 := by
  intro fuel
  induction fuel with
  | zero => intro s c hc; simp [slideWindow] at hc
  | succ fuel ih =>
    intro s c hc
    rw [slideWindow] at hc
    split at hc
    · rcases List.mem_cons.mp hc with rfl | hc
      · exact le_refl s
      · have := ih (s + step) c hc
        omega
    · simp at hc

lemma slideWindow_end_eq (w step n : ℕ) :
    ∀ fuel s, ∀ c ∈ slideWindow w step n s fuel, c.2 = min (c.1 + w - 1) n := by
  intro fuel
  induction fuel with
  | zero => intro s c hc; simp [slideWindow] at hc
  | succ fuel ih =>
    intro s c hc
    rw [slideWindow] at hc
    split at hc
    · rcases List.mem_cons.mp hc with rfl | hc
      · rfl
      · exact ih (s + step) c hc
    · simp at hc

lemma slideWindow_head? (w step n s fuel : ℕ) :
    slideWindow w step n s fuel = [] ∨
      (slideWindow w step n s fuel).head? = some (s, min (s + w - 1) n) := by
  cases fuel with
  | zero => exact Or.inl rfl
  | succ fuel =>
    rw [slideWindow]
    split
    · exact Or.inr rfl
    · exact Or.inl rfl

lemma slideWindow_chain (w step n : ℕ) :
    ∀ fuel s, List.Chain' (fun a b => b.1 = a.1 + step) (slideWindow w step n s fuel) := by
  intro fuel
  induction fuel with
  | zero => intro s; exact List.chain'_nil
  | succ fuel ih =>
    intro s
    rw [slideWindow]
    split
    · refine List.chain'_cons'.mpr ⟨?_, ih (s + step)⟩
      intro b hb
      rcases slideWindow_head? w step n (s + step) fuel with h | h
      · rw [h] at hb; simp at hb
      · rw [h] at hb
        have hb2 : b = (s + step, min (s + step + w - 1) n) := by
          symm
          simpa [Option.mem_def] using hb
        rw [hb2]
    · exact List.chain'_nil

/-- Main coverage lemma for the sliding-window loop: for a line at or past
the current start, either only one chunk covers it, or (exactly on the
overlap region) two chunks with starts `step` apart cover it. -/
lemma slideWindow_cov (w step n ℓ : ℕ) (hstep : 0 < step) (hsw : step ≤ w)
    (hw2 : w ≤ 2 * step) (hln : ℓ ≤ n) :
    ∀ fuel s, n + 1 ≤ s + fuel →
      (ℓ < s → (slideWindow w step n s fuel).filter (fun c => coversLine c ℓ) = []) ∧
      (s ≤ ℓ → ℓ < s + step →
        (slideWindow w step n s fuel).filter (fun c => coversLine c ℓ) =
          [(s, min (s + w - 1) n)]) ∧
      (s + step ≤ ℓ →
        ((ℓ - s) % step < w - step →
          ∃ a b, (slideWindow w step n s fuel).filter (fun c => coversLine c ℓ) =
            [a, b] ∧ b.1 = a.1 + step) ∧
        (¬((ℓ - s) % step < w - step) →
          ∃ a, (slideWindow w step n s fuel).filter (fun c => coversLine c ℓ) = [a])) := by
  intro fuel
  induction fuel with
  | zero =>
    intro s hfuel
    exact ⟨fun _ => rfl, fun hs _ => absurd hs (by omega), fun hs => absurd hs (by omega)⟩
  | succ fuel ih =>
    intro s hfuel
    by_cases hsn : s ≤ n
    · have hguard : s ≤ n ∧ 0 < step := ⟨hsn, hstep⟩
      have hrec := ih (s + step) (by omega)
      rw [slideWindow, if_pos hguard]
      refine ⟨?_, ?_, ?_⟩
      · intro hls
        have hcov : coversLine (s, min (s + w - 1) n) ℓ = false := by
          simp only [coversLine]
          simp only [Bool.and_eq_false_iff, decide_eq_false_iff_not]
          omega
        have h0 := hrec.1 (by omega)
        simp [List.filter_cons, hcov, h0]
      · intro hs hup
        have hcov : coversLine (s, min (s + w - 1) n) ℓ = true := by
          simp only [coversLine, Bool.and_eq_true, decide_eq_true_eq]
          omega
        have h0 := hrec.1 (by omega)
        simp [List.filter_cons, hcov, h0]
      · intro hs
        have hd : step ≤ ℓ - s := by omega
        by_cases hnear : ℓ < s + 2 * step
        · -- the line sits in the first or second window of the remaining loop
          have hmod : (ℓ - s) % step = ℓ - s - step := by
            rw [Nat.mod_eq_sub_mod hd, Nat.mod_eq_of_lt (by omega)]
          have htail := hrec.2.1 (by omega) (by omega)
          constructor
          · intro hover
            have hcov : coversLine (s, min (s + w - 1) n) ℓ = true := by
              simp only [coversLine, Bool.and_eq_true, decide_eq_true_eq]
              omega
            have hfe : ((s, min (s + w - 1) n) ::
                slideWindow w step n (s + step) fuel).filter
                  (fun c => coversLine c ℓ) =
                [(s, min (s + w - 1) n), (s + step, min (s + step + w - 1) n)] := by
              simp [List.filter_cons, hcov, htail]
            exact ⟨(s, min (s + w - 1) n), (s + step, min (s + step + w - 1) n),
              hfe, rfl⟩
          · intro hover
            have hcov : coversLine (s, min (s + w - 1) n) ℓ = false := by
              simp only [coversLine]
              simp only [Bool.and_eq_false_iff, decide_eq_false_iff_not]
              omega
            have hfe : ((s, min (s + w - 1) n) ::
                slideWindow w step n (s + step) fuel).filter
                  (fun c => coversLine c ℓ) =
                [(s + step, min (s + step + w - 1) n)] := by
              simp [List.filter_cons, hcov, htail]
            exact ⟨(s + step, min (s + step + w - 1) n), hfe⟩
        · -- the line is past the first two windows: the head cannot cover it
          have hmod : (ℓ - s) % step = (ℓ - (s + step)) % step := by
            rw [Nat.mod_eq_sub_mod hd]
            congr 1
            omega
          have hcov : coversLine (s, min (s + w - 1) n) ℓ = false := by
            simp only [coversLine]
            simp only [Bool.and_eq_false_iff, decide_eq_false_iff_not]
            omega
          have hfe : ((s, min (s + w - 1) n) ::
              slideWindow w step n (s + step) fuel).filter
                (fun c => coversLine c ℓ) =
              (slideWindow w step n (s + step) fuel).filter
                (fun c => coversLine c ℓ) := by
            simp [List.filter_cons, hcov]
          rw [hmod, hfe]
          exact hrec.2.2 (by omega)
    · rw [slideWindow, if_neg (fun hg => hsn hg.1)]
      exact ⟨fun _ => rfl, fun hs _ => absurd hs (by omega), fun hs => absurd hs (by omega)⟩

end Rag

/-- Counterexample to C3 as stated: with window size 3 and overlap 2
(a legal configuration with `o < w`), line 3 of a 5-line file is covered
by three chunks, not by one or by two adjacent ones. -/
theorem C3_fixed_chunking_counterexample :
    Rag.fixedChunks 3 2 5 = [(1, 3), (2, 4), (3, 5), (4, 5), (5, 5)] ∧
    (Rag.coveringChunks 3 2 5 3).length = 3 := by
  constructor <;> rfl

/-- C3 (amended): for every file and every fixed-strategy chunking whose
overlap is at most half the window (`2 * o ≤ w`, true of the defaults 60
and 10), the produced chunks advance by `w - o` lines, each chunk ends at
`min (start + w - 1) n` (so the last chunk may be shorter than the
window), and every line of the file is covered by at least one chunk and
at most two; two chunks cover a line exactly when the line lies in the
declared overlap region (the first `o` lines of a non-first chunk), and in
that case the two covering chunks are adjacent (their starts differ by
exactly the advance `w - o`). -/
theorem C3_fixed_chunking_coverage (n w o : ℕ) (ho : o < w) (h2 : 2 * o ≤ w) :
    List.Chain' (fun a b => b.1 = a.1 + (w - o)) (Rag.fixedChunks w o n) ∧
    (∀ c ∈ Rag.fixedChunks w o n, c.2 = min (c.1 + w - 1) n) ∧
    (∀ ℓ, 1 ≤ ℓ → ℓ ≤ n →
      Rag.coveringChunks w o n ℓ ≠ [] ∧
      (Rag.coveringChunks w o n ℓ).length ≤ 2 ∧
      (∀ a b, Rag.coveringChunks w o n ℓ = [a, b] → b.1 = a.1 + (w - o)) ∧
      ((Rag.coveringChunks w o n ℓ).length = 2 ↔
        w - o ≤ ℓ - 1 ∧ (ℓ - 1) % (w - o) < o)) := by
  have hstep : 0 < w - o := by omega
  have hsw : w - o ≤ w := by omega
  have hw2 : w ≤ 2 * (w - o) := by omega
  have hwo : w - (w - o) = o := by omega
  refine ⟨Rag.slideWindow_chain w (w - o) n n 1,
    Rag.slideWindow_end_eq w (w - o) n n 1, ?_⟩
  intro ℓ h1 hn
  have H := Rag.slideWindow_cov w (w - o) n ℓ hstep hsw hw2 hn n 1 (by omega)
  by_cases hfirst : ℓ < 1 + (w - o)
  · have hfe := H.2.1 h1 hfirst
    rw [Rag.coveringChunks, Rag.fixedChunks, hfe]
    refine ⟨by simp, by simp, ?_, ?_⟩
    · intro a b hab
      simp at hab
    · simp only [List.length_singleton]
      constructor
      · intro h; omega
      · intro h; omega
  · have H2 := H.2.2 (by omega)
    rw [hwo] at H2
    by_cases hov : (ℓ - 1) % (w - o) < o
    · obtain ⟨a, b, hfe, hab⟩ := H2.1 hov
      rw [Rag.coveringChunks, Rag.fixedChunks, hfe]
      refine ⟨by simp, by simp, ?_, ?_⟩
      · intro a' b' h'
        simp only [List.cons.injEq, and_true] at h'
        rw [← h'.1, ← h'.2]
        exact hab
      · simp only [List.length_cons, List.length_singleton]
        constructor
        · intro _; exact ⟨by omega, hov⟩
        · intro _; rfl
    · obtain ⟨a, hfe⟩ := H2.2 hov
      rw [Rag.coveringChunks, Rag.fixedChunks, hfe]
      refine ⟨by simp, by simp, ?_, ?_⟩
      · intro a' b' h'
        simp at h'
      · simp only [List.length_singleton]
        constructor
        · intro h; omega
        · intro h; exact absurd h.2 hov

/-- Witness for C3 (amended) at the default parameters: in a 125-line file
chunked with window 60 and overlap 10, line 55 lies in the overlap region
and is covered by exactly two chunks. -/
theorem C3_fixed_chunking_coverage_witness :
    (Rag.coveringChunks 60 10 125 55).length = 2 ∧
      Rag.coveringChunks 60 10 125 55 ≠ [] := by
  have h := C3_fixed_chunking_coverage 125 60 10 (by norm_num) (by norm_num)
  have h55 := h.2.2 55 (by norm_num) (by norm_num)
  exact ⟨h55.2.2.2.mpr (by norm_num), h55.1⟩

namespace Rag

/-! ## BM25 index and scorer (spec section 4.2)

Modelled from the spec: `solution/src/ggf_case/rag/bm25.py` is absent from
the source tree.  A code chunk is represented by its stable identifier
(file path + start line) and its token sequence (the Tokenizer contract is
a collaborator and is not re-modelled); real numbers model floating-point
scores. -/

/-- A chunk as seen by the index: stable id and token sequence. -/
structure CodeChunk where
  id : String
  tokens : List String
deriving DecidableEq

/-- Modelled from the spec: a term's posting list in the inverted index,
the (chunk id, term frequency) pairs for exactly the chunks containing the
term. -/
def postings (chunks : List CodeChunk) (t : String) : List (String × ℕ) :=
  chunks.filterMap (fun c =>
    if 0 < c.tokens.count t then some (c.id, c.tokens.count t) else none)

/-- Modelled from the spec: the BM25 index owns the chunk set and the
tunable parameters `k1` and `b`. -/
structure BM25Index where
  chunks : List CodeChunk
  k1 : ℝ
  b : ℝ

/-- Modelled from the spec: default term-frequency saturation `k1 = 1.5`. -/
def defaultK1 : ℝ := 1.5

/-- Modelled from the spec: default length normalization `b = 0.75`. -/
def defaultB : ℝ := 0.75

/-- Modelled from the spec: `build_bm25_index` with caller-configurable
`k1` and `b`. -/
def build_bm25_index (chunks : List CodeChunk) (k1 b : ℝ) : BM25Index :=
  ⟨chunks, k1, b⟩

namespace BM25Index

/-- Total chunk count. -/
def N (idx : BM25Index) : ℕ := idx.chunks.length

/-- Document frequency read off the inverted index: posting-list length. -/
def df (idx : BM25Index) (t : String) : ℕ := (postings idx.chunks t).length

/-- Term frequency read off the inverted index: posting-list lookup by
chunk id, zero when the chunk has no posting for the term. -/
def tf (idx : BM25Index) (t : String) (cid : String) : ℕ :=
  ((postings idx.chunks t).lookup cid).getD 0

/-- Corpus-wide average chunk length. -/
noncomputable def avgdl (idx : BM25Index) : ℝ :=
  (((idx.chunks.map (fun c => c.tokens.length)).sum : ℕ) : ℝ) / (idx.N : ℝ)

/-- Modelled from the spec:
`idf(term) = ln((N - df(term) + 0.5) / (df(term) + 0.5) + 1)`. -/
noncomputable def idf (idx : BM25Index) (t : String) : ℝ :=
  Real.log (((idx.N : ℝ) - (idx.df t : ℝ) + 0.5) / ((idx.df t : ℝ) + 0.5) + 1)

/-- One query term's contribution for a chunk of length `dl` whose term
frequency is `tfv`:
`idf(t) * (f(t,D) * (k1+1)) / (f(t,D) + k1 * (1 - b + b * dl / avgdl))`. -/
noncomputable def termScore (idx : BM25Index) (t : String) (tfv dl : ℕ) : ℝ :=
  idx.idf t *
    ((tfv : ℝ) * (idx.k1 + 1) /
      ((tfv : ℝ) + idx.k1 * (1 - idx.b + idx.b * (dl : ℝ) / idx.avgdl)))

end BM25Index

/-- Modelled from the spec: `bm25_score(D, Q)` accumulates the per-term
contributions over the query terms, reading term frequencies off the
inverted index. -/
noncomputable def bm25_score (idx : BM25Index) (q : List String) (d : CodeChunk) : ℝ :=
  q.foldl (fun acc t => acc + idx.termScore t (idx.tf t d.id) d.tokens.length) 0

/-- Descending insertion into an already ranked list. -/
def insertRanked (le : CodeChunk → CodeChunk → Bool) (a : CodeChunk) :
    List CodeChunk → List CodeChunk
  | [] => [a]
  | b :: bs => if le a b then a :: b :: bs else b :: insertRanked le a bs

/-- Insertion sort by the given ranking test. -/
def sortRanked (le : CodeChunk → CodeChunk → Bool) : List CodeChunk → List CodeChunk
  | [] => []
  | a :: as => insertRanked le a (sortRanked le as)

open Classical in
/-- Modelled from the spec: ranking order of `retrieve` — descending by
score, with the deterministic tie-break modelled by the chunk id (which
stands for the file path + start line of section 3). -/
noncomputable def rankedBefore (idx : BM25Index) (q : List String)
    (a c : CodeChunk) : Bool :=
  decide (bm25_score idx q c < bm25_score idx q a ∨
    (bm25_score idx q a = bm25_score idx q c ∧ a.id ≤ c.id))

/-- Modelled from the spec: `retrieve_bm25(query, k)` scores every chunk
containing at least one query term (zero-overlap chunks are excluded
rather than ranked), sorts descending by score with deterministic
tie-break, and returns the top `k`. -/
noncomputable def retrieve_bm25 (idx : BM25Index) (q : List String) (k : ℕ) :
    List CodeChunk :=
  (sortRanked (rankedBefore idx q)
    (idx.chunks.filter (fun c => q.any (fun t => c.tokens.contains t)))).take k

lemma mem_insertRanked {le : CodeChunk → CodeChunk → Bool} {a x : CodeChunk} :
    ∀ {l : List CodeChunk}, x ∈ insertRanked le a l ↔ x = a ∨ x ∈ l := by
  intro l
  induction l with
  | nil => simp [insertRanked]
  | cons b bs ih =>
    rw [insertRanked]
    split
    · simp
    · simp only [List.mem_cons, ih]
      tauto

lemma mem_sortRanked {le : CodeChunk → CodeChunk → Bool} {x : CodeChunk} :
    ∀ {l : List CodeChunk}, x ∈ sortRanked le l ↔ x ∈ l := by
  intro l
  induction l with
  | nil => simp [sortRanked]
  | cons a as ih =>
    rw [sortRanked, mem_insertRanked]
    simp [ih]

lemma foldl_add_eq (f : String → ℝ) :
    ∀ (q : List String) (a : ℝ), q.foldl (fun acc t => acc + f t) a = a + (q.map f).sum := by
  intro q
  induction q with
  | nil => intro a; simp
  | cons t ts ih =>
    intro a
    simp only [List.foldl_cons, List.map_cons, List.sum_cons, ih (a + f t)]
    ring

lemma postings_cons (c : CodeChunk) (cs : List CodeChunk) (t : String) :
    postings (c :: cs) t =
      if 0 < c.tokens.count t then (c.id, c.tokens.count t) :: postings cs t
      else postings cs t := by
  by_cases h : t ∈ c.tokens
  · have hc : 0 < c.tokens.count t := List.count_pos_iff.mpr h
    simp [postings, List.filterMap_cons, h, hc]
  · have hc : ¬0 < c.tokens.count t := fun hcc => h (List.count_pos_iff.mp hcc)
    simp [postings, List.filterMap_cons, h, hc]

lemma postings_length (chunks : List CodeChunk) (t : String) :
    (postings chunks t).length = chunks.countP (fun c => decide (t ∈ c.tokens)) := by
  induction chunks with
  | nil => rfl
  | cons c cs ih =>
    rw [postings_cons, List.countP_cons]
    by_cases h : t ∈ c.tokens
    · rw [if_pos (List.count_pos_iff.mpr h)]
      simp [h, ih]
    · rw [if_neg (fun hc => h (List.count_pos_iff.mp hc))]
      simp [h, ih]

lemma lookup_postings_eq_none {chunks : List CodeChunk} {cid : String}
    (h : cid ∉ chunks.map (fun c => c.id)) (t : String) :
    (postings chunks t).lookup cid = none := by
  induction chunks with
  | nil => rfl
  | cons c cs ih =>
    simp only [List.map_cons, List.mem_cons, not_or] at h
    rw [postings_cons]
    split
    · rw [List.lookup_cons]
      have hne : (cid == c.id) = false := by
        simp only [beq_eq_false_iff_ne, ne_eq]
        exact h.1
      rw [hne]
      exact ih h.2
    · exact ih h.2

/-- Unfolding of `tf` on a built index. -/
lemma tf_def (chunks : List CodeChunk) (k1 b : ℝ) (t cid : String) :
    (build_bm25_index chunks k1 b).tf t cid =
      ((postings chunks t).lookup cid).getD 0 := rfl

/-- With pairwise-distinct chunk ids, the term frequency read off the
inverted index is the chunk's own token count for the term. -/
lemma tf_eq_count {chunks : List CodeChunk} {d : CodeChunk} (k1 b : ℝ)
    (hnodup : (chunks.map (fun c => c.id)).Nodup) (hd : d ∈ chunks) (t : String) :
    (build_bm25_index chunks k1 b).tf t d.id = d.tokens.count t := by
  rw [tf_def]
  induction chunks with
  | nil => simp at hd
  | cons c cs ih =>
    simp only [List.map_cons, List.nodup_cons] at hnodup
    rw [postings_cons]
    rcases List.mem_cons.mp hd with rfl | hd'
    · by_cases h : 0 < d.tokens.count t
      · rw [if_pos h, List.lookup_cons]
        simp
      · rw [if_neg h, lookup_postings_eq_none hnodup.1 t]
        simp only [Option.getD_none]
        omega
    · have hne : (d.id == c.id) = false := by
        simp only [beq_eq_false_iff_ne, ne_eq]
        intro he
        exact hnodup.1 (he ▸ List.mem_map_of_mem (fun c => c.id) hd')
      split
      · rw [List.lookup_cons, hne]
        exact ih hnodup.2 hd'
      · exact ih hnodup.2 hd'

lemma df_le_N (chunks : List CodeChunk) (k1 b : ℝ) (t : String) :
    (build_bm25_index chunks k1 b).df t ≤ (build_bm25_index chunks k1 b).N :=
  List.length_filterMap_le _ chunks

lemma idf_nonneg (chunks : List CodeChunk) (k1 b : ℝ) (t : String) :
    0 ≤ (build_bm25_index chunks k1 b).idf t := by
  rw [BM25Index.idf]
  apply Real.log_nonneg
  have hdf := df_le_N chunks k1 b t
  have hdfr : ((build_bm25_index chunks k1 b).df t : ℝ) ≤
      ((build_bm25_index chunks k1 b).N : ℝ) := by exact_mod_cast hdf
  have h2 : (0 : ℝ) ≤ ((build_bm25_index chunks k1 b).N : ℝ) -
      ((build_bm25_index chunks k1 b).df t : ℝ) + 0.5 := by linarith
  have h3 : (0 : ℝ) ≤ (((build_bm25_index chunks k1 b).N : ℝ) -
      ((build_bm25_index chunks k1 b).df t : ℝ) + 0.5) /
        (((build_bm25_index chunks k1 b).df t : ℝ) + 0.5) :=
    div_nonneg h2 (by positivity)
  linarith

lemma avgdl_nonneg (chunks : List CodeChunk) (k1 b : ℝ) :
    0 ≤ (build_bm25_index chunks k1 b).avgdl := by
  rw [BM25Index.avgdl]
  exact div_nonneg (Nat.cast_nonneg _) (Nat.cast_nonneg _)

/-- The spec's closed per-term score formula, written directly in terms of
raw counts over the chunk set: document frequency is the number of chunks
containing the term, term frequency is the chunk's own token count, and
the average document length is the total token count divided by the chunk
count. -/
noncomputable def specTermFormula (chunks : List CodeChunk) (k1 b : ℝ)
    (d : CodeChunk) (t : String) : ℝ :=
  Real.log (((chunks.length : ℝ) -
      ((chunks.countP (fun c => decide (t ∈ c.tokens)) : ℕ) : ℝ) + 0.5) /
      (((chunks.countP (fun c => decide (t ∈ c.tokens)) : ℕ) : ℝ) + 0.5) + 1) *
    ((d.tokens.count t : ℝ) * (k1 + 1) /
      ((d.tokens.count t : ℝ) + k1 * (1 - b + b * (d.tokens.length : ℝ) /
        ((((chunks.map (fun c => c.tokens.length)).sum : ℕ) : ℝ) /
          (chunks.length : ℝ)))))

/-- Each query term's BM25 contribution is non-decreasing in the term
frequency, for a fixed document length. -/
lemma termScore_mono (chunks : List CodeChunk) (k1 b : ℝ) (t : String) (dl : ℕ)
    (hk1 : 0 < k1) (hb0 : 0 ≤ b) (hb1 : b ≤ 1) {x y : ℕ} (hxy : x ≤ y) :
    (build_bm25_index chunks k1 b).termScore t x dl ≤
      (build_bm25_index chunks k1 b).termScore t y dl := by
  have hidf := idf_nonneg chunks k1 b t
  have havg := avgdl_nonneg chunks k1 b
  rw [BM25Index.termScore, BM25Index.termScore]
  have hkb : (build_bm25_index chunks k1 b).k1 = k1 := rfl
  have hbb : (build_bm25_index chunks k1 b).b = b := rfl
  rw [hkb, hbb]
  set K := k1 * (1 - b + b * (dl : ℝ) / (build_bm25_index chunks k1 b).avgdl) with hKdef
  have hK : 0 ≤ K := by
    have hq : 0 ≤ b * (dl : ℝ) / (build_bm25_index chunks k1 b).avgdl :=
      div_nonneg (by positivity) havg
    have : (0 : ℝ) ≤ 1 - b + b * (dl : ℝ) / (build_bm25_index chunks k1 b).avgdl := by
      linarith
    exact mul_nonneg hk1.le this
  apply mul_le_mul_of_nonneg_left _ hidf
  rcases Nat.eq_zero_or_pos x with rfl | hx
  · simp only [Nat.cast_zero, zero_mul, zero_div, zero_add]
    have hnum : (0 : ℝ) ≤ (y : ℝ) * (k1 + 1) := by positivity
    have hden : (0 : ℝ) ≤ (y : ℝ) + K := by positivity
    exact div_nonneg hnum hden
  · have hxp : (0 : ℝ) < (x : ℝ) := by exact_mod_cast hx
    have hxyr : (x : ℝ) ≤ (y : ℝ) := by exact_mod_cast hxy
    have hyp : (0 : ℝ) < (y : ℝ) := lt_of_lt_of_le hxp hxyr
    rw [div_le_div_iff₀ (by linarith) (by linarith)]
    nlinarith [mul_nonneg (mul_nonneg (by linarith : (0 : ℝ) ≤ k1 + 1) hK)
      (sub_nonneg.mpr hxyr)]

/-- Rewrite the score of an indexed chunk as a sum over query terms of the
closed per-term formula, reading term frequencies from the chunk itself. -/
lemma bm25_score_eq_sum (chunks : List CodeChunk) (k1 b : ℝ) (q : List String)
    (d : CodeChunk) (hnodup : (chunks.map (fun c => c.id)).Nodup) (hd : d ∈ chunks) :
    bm25_score (build_bm25_index chunks k1 b) q d =
      (q.map (fun t => (build_bm25_index chunks k1 b).termScore t
        (d.tokens.count t) d.tokens.length)).sum := by
  rw [bm25_score, foldl_add_eq, zero_add]
  refine congrArg List.sum (List.map_congr_left fun t ht => ?_)
  rw [tf_eq_count k1 b hnodup hd t]

end Rag

/-- C1: on an index built from a chunk set with caller-supplied parameters
`k1` and `b` (defaults 1.5 and 0.75), the BM25 score of an indexed chunk D
against a query Q is the sum over query terms of
`idf(t) * (f(t,D) * (k1+1)) / (f(t,D) + k1 * (1 - b + b * |D| / avgdl))`,
with `idf(t) = ln((N - df(t) + 0.5) / (df(t) + 0.5) + 1)`, `N` the total
chunk count, `df(t)` the number of chunks containing `t`, `|D|` the
chunk's token count and `avgdl` the average token count
(`Rag.specTermFormula` spells the per-term formula). -/
theorem C1_bm25_score_formula (chunks : List Rag.CodeChunk) (k1 b : ℝ)
    (q : List String) (d : Rag.CodeChunk)
    (hnodup : (chunks.map (fun c => c.id)).Nodup) (hd : d ∈ chunks) :
    Rag.bm25_score (Rag.build_bm25_index chunks k1 b) q d =
      (q.map (Rag.specTermFormula chunks k1 b d)).sum ∧
    Rag.defaultK1 = 1.5 ∧ Rag.defaultB = 0.75 := by
  refine ⟨?_, rfl, rfl⟩
  rw [Rag.bm25_score_eq_sum chunks k1 b q d hnodup hd]
  refine congrArg List.sum (List.map_congr_left fun t ht => ?_)
  simp only [Rag.BM25Index.termScore, Rag.BM25Index.idf, Rag.BM25Index.avgdl,
    Rag.BM25Index.N, Rag.BM25Index.df, Rag.postings_length, Rag.build_bm25_index,
    Rag.specTermFormula]

/-- Witness for C1 on a concrete two-chunk corpus. -/
theorem C1_bm25_score_formula_witness :
    Rag.bm25_score
        (Rag.build_bm25_index
          [⟨"a.ts:1", ["pause", "toggle"]⟩, ⟨"b.ts:1", ["score"]⟩] 1.5 0.75)
        ["pause"] ⟨"a.ts:1", ["pause", "toggle"]⟩ =
      ((["pause"] : List String).map
        (Rag.specTermFormula
          [⟨"a.ts:1", ["pause", "toggle"]⟩, ⟨"b.ts:1", ["score"]⟩] 1.5 0.75
          ⟨"a.ts:1", ["pause", "toggle"]⟩)).sum :=
  (C1_bm25_score_formula
    [⟨"a.ts:1", ["pause", "toggle"]⟩, ⟨"b.ts:1", ["score"]⟩] 1.5 0.75
    ["pause"] ⟨"a.ts:1", ["pause", "toggle"]⟩ (by decide) (by decide)).1

/-- C6: for a fixed document length and fixed index parameters, the BM25
score of an indexed chunk is monotonically non-decreasing in the term
frequency of each query term: a chunk whose query-term frequencies are
pointwise at least as large, at the same document length, never scores
lower, even under k1 saturation. -/
theorem C6_bm25_score_monotone_in_tf (chunks : List Rag.CodeChunk) (k1 b : ℝ)
    (q : List String) (d1 d2 : Rag.CodeChunk)
    (hk1 : 0 < k1) (hb0 : 0 ≤ b) (hb1 : b ≤ 1)
    (hnodup : (chunks.map (fun c => c.id)).Nodup)
    (h1 : d1 ∈ chunks) (h2 : d2 ∈ chunks)
    (hdl : d1.tokens.length = d2.tokens.length)
    (htf : ∀ t ∈ q, d1.tokens.count t ≤ d2.tokens.count t) :
    Rag.bm25_score (Rag.build_bm25_index chunks k1 b) q d1 ≤
      Rag.bm25_score (Rag.build_bm25_index chunks k1 b) q d2 := by
  rw [Rag.bm25_score_eq_sum chunks k1 b q d1 hnodup h1,
    Rag.bm25_score_eq_sum chunks k1 b q d2 hnodup h2]
  apply List.sum_le_sum
  intro t ht
  rw [hdl]
  exact Rag.termScore_mono chunks k1 b t d2.tokens.length hk1 hb0 hb1 (htf t ht)

/-- Witness for C6: two indexed chunks of equal length, the second with a
higher frequency of the query term. -/
theorem C6_bm25_score_monotone_in_tf_witness :
    Rag.bm25_score
        (Rag.build_bm25_index
          [⟨"a", ["x", "y"]⟩, ⟨"b", ["x", "x"]⟩] 1.5 0.75)
        ["x"] ⟨"a", ["x", "y"]⟩ ≤
      Rag.bm25_score
        (Rag.build_bm25_index
          [⟨"a", ["x", "y"]⟩, ⟨"b", ["x", "x"]⟩] 1.5 0.75)
        ["x"] ⟨"b", ["x", "x"]⟩ :=
  C6_bm25_score_monotone_in_tf
    [⟨"a", ["x", "y"]⟩, ⟨"b", ["x", "x"]⟩] 1.5 0.75 ["x"]
    ⟨"a", ["x", "y"]⟩ ⟨"b", ["x", "x"]⟩ (by norm_num) (by norm_num) (by norm_num)
    (by decide) (by decide) (by decide) (by decide) (by decide)

/-- C5: BM25 retrieval ranks only chunks sharing at least one query term:
every returned chunk contains a query term, a chunk with zero term overlap
scores 0 and is excluded from the candidate list, and both an empty query
and a query whose every term is absent from the corpus yield an empty
result (a value, not an error). -/
theorem C5_retrieve_edge_cases :
    (∀ (chunks : List Rag.CodeChunk) (k1 b : ℝ) (q : List String) (k : ℕ)
      (d : Rag.CodeChunk),
      d ∈ Rag.retrieve_bm25 (Rag.build_bm25_index chunks k1 b) q k →
        ∃ t ∈ q, t ∈ d.tokens) ∧
    (∀ (chunks : List Rag.CodeChunk) (k1 b : ℝ) (q : List String)
      (d : Rag.CodeChunk),
      (chunks.map (fun c => c.id)).Nodup → d ∈ chunks →
      (∀ t ∈ q, t ∉ d.tokens) →
        Rag.bm25_score (Rag.build_bm25_index chunks k1 b) q d = 0) ∧
    (∀ (chunks : List Rag.CodeChunk) (k1 b : ℝ) (k : ℕ),
      Rag.retrieve_bm25 (Rag.build_bm25_index chunks k1 b) [] k = []) ∧
    (∀ (chunks : List Rag.CodeChunk) (k1 b : ℝ) (q : List String) (k : ℕ),
      (∀ t ∈ q, ∀ c ∈ chunks, t ∉ c.tokens) →
        Rag.retrieve_bm25 (Rag.build_bm25_index chunks k1 b) q k = []) := by
  refine ⟨?_, ?_, ?_, ?_⟩
  · intro chunks k1 b q k d hd
    have hmem : d ∈ Rag.sortRanked
        (Rag.rankedBefore (Rag.build_bm25_index chunks k1 b) q)
        (chunks.filter (fun c => q.any (fun t => c.tokens.contains t))) :=
      List.mem_of_mem_take hd
    have hfil := Rag.mem_sortRanked.mp hmem
    have hpred := (List.mem_filter.mp hfil).2
    simpa using hpred
  · intro chunks k1 b q d hnodup hd hnone
    rw [Rag.bm25_score_eq_sum chunks k1 b q d hnodup hd]
    apply List.sum_eq_zero
    intro x hx
    obtain ⟨t, ht, rfl⟩ := List.mem_map.mp hx
    rw [List.count_eq_zero.mpr (hnone t ht)]
    simp [Rag.BM25Index.termScore]
  · intro chunks k1 b k
    simp [Rag.retrieve_bm25, Rag.sortRanked]
  · intro chunks k1 b q k habs
    have hfil : chunks.filter (fun c => q.any (fun t => c.tokens.contains t)) = [] := by
      rw [List.filter_eq_nil_iff]
      intro c hc hany
      obtain ⟨t, ht, hcont⟩ := List.any_eq_true.mp hany
      exact habs t ht c hc (List.elem_iff.mp hcont)
    rw [Rag.retrieve_bm25]
    simp only [Rag.build_bm25_index]
    rw [hfil]
    simp [Rag.sortRanked]

/-- Witness for C5: a query term absent from a one-chunk corpus retrieves
nothing. -/
theorem C5_retrieve_edge_cases_witness :
    Rag.retrieve_bm25
        (Rag.build_bm25_index [⟨"a.ts:1", ["pause", "game"]⟩] 1.5 0.75)
        ["zzz"] 5 = [] :=
  C5_retrieve_edge_cases.2.2.2 [⟨"a.ts:1", ["pause", "game"]⟩] 1.5 0.75
    ["zzz"] 5 (by decide)


namespace Game

/-! ## ggf-mini-game state systems

Translated from the TypeScript under `ggf-mini-game/src`.  JavaScript
numbers are modelled as real numbers. -/

/-- Translation of `Vec2` from `core/gameState.ts`. -/
structure Vec2 where
  x : ℝ
  y : ℝ

/-- Enemy behaviour states from `core/gameState.ts`. -/
inductive EnemyState where
  | idle
  | patrol
  | chase
  | dead
deriving DecidableEq

/-- Translation of `Enemy` from `core/gameState.ts`. -/
structure Enemy where
  id : String
  position : Vec2
  speed : ℝ
  hp : ℝ
  maxHp : ℝ
  state : EnemyState

/-- Translation of `Player` from `core/gameState.ts`. -/
structure Player where
  position : Vec2
  hp : ℝ
  maxHp : ℝ
  score : ℝ
  combo : ℝ

/-- Translation of `GameSettings` from `core/gameState.ts`. -/
structure GameSettings where
  difficulty : ℝ
  soundVolume : ℝ
  musicVolume : ℝ
  showFps : Bool

/-- Translation of `GameState` from `core/gameState.ts`; the `inputMap` record is an
ordered association list. -/
structure GameState where
  tick : ℝ
  paused : Bool
  player : Player
  enemies : List Enemy
  inputMap : List (String × String)
  settings : GameSettings

/-- Translation of `Partial<GameSettings>` as carried by the `UPDATE_SETTINGS` action. -/
structure SettingsPatch where
  difficulty : Option ℝ
  soundVolume : Option ℝ
  musicVolume : Option ℝ
  showFps : Option Bool

/-- Translation of `GameAction` from `core/gameState.ts`. -/
inductive GameAction where
  | tick
  | setPaused (paused : Bool)
  | addScore (points : ℝ)
  | spawnEnemy (enemy : Enemy)
  | removeEnemy (enemyId : String)
  | movePlayer (position : Vec2)
  | updateSettings (settings : SettingsPatch)

/-- Translation of `createInitialState` from `core/gameState.ts`. -/
noncomputable def createInitialState : GameState where
  tick := 0
  paused := false
  player := ⟨⟨0, 0⟩, 100, 100, 0, 0⟩
  enemies := []
  inputMap := [("moveUp", "KeyW"), ("moveDown", "KeyS"), ("moveLeft", "KeyA"),
    ("moveRight", "KeyD"), ("jump", "Space"), ("attack", "KeyJ"),
    ("pause", "Escape")]
  settings := ⟨5, 0.8, 0.6, false⟩

/-- Translation of `gameReducer` from `core/gameState.ts`: pure reducer over actions. -/
noncomputable def gameReducer (state : GameState) (action : GameAction) : GameState :=
  match action with
  | .tick =>
    if state.paused then state else { state with tick := state.tick + 1 }
  | .setPaused p => { state with paused := p }
  | .addScore points =>
    { state with player := { state.player with score := state.player.score + points } }
  | .spawnEnemy e => { state with enemies := state.enemies ++ [e] }
  | .removeEnemy eid =>
    { state with enemies := state.enemies.filter (fun e => e.id != eid) }
  | .movePlayer pos => { state with player := { state.player with position := pos } }
  | .updateSettings p =>
    { state with settings :=
      ⟨p.difficulty.getD state.settings.difficulty,
       p.soundVolume.getD state.settings.soundVolume,
       p.musicVolume.getD state.settings.musicVolume,
       p.showFps.getD state.settings.showFps⟩ }

/-- Translation of `isPaused` from `systems/pause.ts`. -/
def isPaused (state : GameState) : Bool := state.paused

/-- Translation of `pauseGame` from `systems/pause.ts`. -/
def pauseGame (state : GameState) : GameState := { state with paused := true }

/-- Translation of `resumeGame` from `systems/pause.ts`. -/
def resumeGame (state : GameState) : GameState := { state with paused := false }

/-- Translation of `addScore` from `systems/score.ts`: raw points, no combo multiplier,
and a no-op while paused. -/
noncomputable def addScore (state : GameState) (points : ℝ) : GameState :=
  if state.paused then state
  else { state with player := { state.player with score := state.player.score + points } }

/-- Translation of `resetScore` from `systems/score.ts`. -/
noncomputable def resetScore (state : GameState) : GameState :=
  { state with player := { state.player with score := 0, combo := 0 } }

/-- Translation of `getScore` from `systems/score.ts`. -/
def getScore (state : GameState) : ℝ := state.player.score

/-- Translation of `distance` from `systems/enemyAI.ts`. -/
noncomputable def distance (a b : Vec2) : ℝ :=
  Real.sqrt ((a.x - b.x) ^ 2 + (a.y - b.y) ^ 2)

open Classical in
/-- Translation of `updateEnemyAI` from `systems/enemyAI.ts`: chase the player within 100
units, otherwise idle; the JavaScript `Math.sqrt(...) || 1` fallback is the
`norm = 0` branch. -/
noncomputable def updateEnemyAI (enemy : Enemy) (state : GameState) : Enemy :=
  if enemy.state = .dead then enemy
  else
    let dist := distance enemy.position state.player.position
    if dist < 100 then
      let dx := state.player.position.x - enemy.position.x
      let dy := state.player.position.y - enemy.position.y
      let n := Real.sqrt (dx * dx + dy * dy)
      let norm := if n = 0 then 1 else n
      { enemy with
        state := .chase
        position := ⟨enemy.position.x + dx / norm * enemy.speed,
          enemy.position.y + dy / norm * enemy.speed⟩ }
    else { enemy with state := .idle }

/-- Translation of `updateAllEnemies` from `systems/enemyAI.ts`: a no-op while paused. -/
noncomputable def updateAllEnemies (state : GameState) : GameState :=
  if state.paused then state
  else { state with enemies := state.enemies.map (fun e => updateEnemyAI e state) }

/-- Translation of `createEnemy` from `systems/enemyAI.ts`. -/
def createEnemy (id : String) (x y : ℝ) (speed : ℝ) : Enemy :=
  ⟨id, ⟨x, y⟩, speed, 50, 50, .idle⟩

/-- JSON values as produced by `JSON.parse`; objects keep field order. -/
inductive Json where
  | null
  | bool (b : Bool)
  | num (x : ℝ)
  | str (s : String)
  | arr (items : List Json)
  | obj (fields : List (String × Json))

/-- JavaScript property access `data.k` on a parsed value: the field of an
object, `undefined` (here `none`) otherwise. -/
def Json.getField : Json → String → Option Json
  | .obj fields, k => fields.lookup k
  | _, _ => none

open Classical in
/-- JavaScript truthiness test `!data` on a parsed JSON value. -/
noncomputable def Json.isFalsy : Json → Bool
  | .null => true
  | .bool b => !b
  | .num x => decide (x = 0)
  | .str s => decide (s = "")
  | .arr _ => false
  | .obj _ => false

/-- JSON encoding of `Vec2`, following `JSON.stringify` field order. -/
def encodeVec2 (v : Vec2) : Json :=
  .obj [("x", .num v.x), ("y", .num v.y)]

/-- JSON encoding of the enemy state string. -/
def encodeEnemyState : EnemyState → Json
  | .idle => .str "idle"
  | .patrol => .str "patrol"
  | .chase => .str "chase"
  | .dead => .str "dead"

/-- JSON encoding of `Enemy`, following `JSON.stringify` field order. -/
def encodeEnemy (e : Enemy) : Json :=
  .obj [("id", .str e.id), ("position", encodeVec2 e.position),
    ("speed", .num e.speed), ("hp", .num e.hp), ("maxHp", .num e.maxHp),
    ("state", encodeEnemyState e.state)]

/-- JSON encoding of `Player`. -/
def encodePlayer (p : Player) : Json :=
  .obj [("position", encodeVec2 p.position), ("hp", .num p.hp),
    ("maxHp", .num p.maxHp), ("score", .num p.score), ("combo", .num p.combo)]

/-- JSON encoding of `GameSettings`. -/
def encodeSettings (s : GameSettings) : Json :=
  .obj [("difficulty", .num s.difficulty), ("soundVolume", .num s.soundVolume),
    ("musicVolume", .num s.musicVolume), ("showFps", .bool s.showFps)]

/-- JSON encoding of `GameState`. -/
def encodeGameState (s : GameState) : Json :=
  .obj [("tick", .num s.tick), ("paused", .bool s.paused),
    ("player", encodePlayer s.player),
    ("enemies", .arr (s.enemies.map encodeEnemy)),
    ("inputMap", .obj (s.inputMap.map (fun kv => (kv.1, .str kv.2)))),
    ("settings", encodeSettings s.settings)]

/-- Translation of `serializeState` from `systems/save.ts`: wraps the state in a
version-1 `SaveData` envelope with a timestamp (the impure `Date.now()`
is passed in as the `timestamp` argument) and serializes it to JSON. -/
def serializeState (state : GameState) (timestamp : ℝ) : Json :=
  .obj [("version", .num 1), ("timestamp", .num timestamp),
    ("state", encodeGameState state)]

/-- Numeric field access. -/
def Json.asNum : Json → Option ℝ
  | .num x => some x
  | _ => none

/-- Boolean field access. -/
def Json.asBool : Json → Option Bool
  | .bool b => some b
  | _ => none

/-- Read a numeric field of an object. -/
def getNumField (j : Json) (k : String) : Option ℝ :=
  (j.getField k).bind Json.asNum

/-- Read a boolean field of an object. -/
def getBoolField (j : Json) (k : String) : Option Bool :=
  (j.getField k).bind Json.asBool

/-- Structural decoding of `Vec2`. -/
def decodeVec2 (j : Json) : Option Vec2 := do
  let x ← getNumField j "x"
  let y ← getNumField j "y"
  pure ⟨x, y⟩

/-- Structural decoding of the enemy state string. -/
def decodeEnemyState : Json → Option EnemyState
  | .str "idle" => some .idle
  | .str "patrol" => some .patrol
  | .str "chase" => some .chase
  | .str "dead" => some .dead
  | _ => none

/-- String field access. -/
def Json.asStr : Json → Option String
  | .str s => some s
  | _ => none

/-- Structural decoding of `Enemy`. -/
def decodeEnemy (j : Json) : Option Enemy := do
  let id ← (j.getField "id").bind Json.asStr
  let position ← (j.getField "position").bind decodeVec2
  let speed ← getNumField j "speed"
  let hp ← getNumField j "hp"
  let maxHp ← getNumField j "maxHp"
  let st ← (j.getField "state").bind decodeEnemyState
  pure ⟨id, position, speed, hp, maxHp, st⟩

/-- Structural decoding of `Player`. -/
def decodePlayer (j : Json) : Option Player := do
  let position ← (j.getField "position").bind decodeVec2
  let hp ← getNumField j "hp"
  let maxHp ← getNumField j "maxHp"
  let score ← getNumField j "score"
  let combo ← getNumField j "combo"
  pure ⟨position, hp, maxHp, score, combo⟩

/-- Structural decoding of `GameSettings`. -/
def decodeSettings (j : Json) : Option GameSettings := do
  let difficulty ← getNumField j "difficulty"
  let soundVolume ← getNumField j "soundVolume"
  let musicVolume ← getNumField j "musicVolume"
  let showFps ← getBoolField j "showFps"
  pure ⟨difficulty, soundVolume, musicVolume, showFps⟩

/-- Decode every element of a list, failing when one fails. -/
def decodeEach (f : β → Option α) : List β → Option (List α)
  | [] => some []
  | j :: js => do
    let a ← f j
    let as ← decodeEach f js
    pure (a :: as)

/-- Structural decoding of one input binding. -/
def decodeBinding (kv : String × Json) : Option (String × String) :=
  match kv.2 with
  | .str v => some (kv.1, v)
  | _ => none

/-- Structural decoding of the input map object. -/
def decodeInputMap : Json → Option (List (String × String))
  | .obj fields => decodeEach decodeBinding fields
  | _ => none

/-- Structural decoding of the enemies array. -/
def decodeEnemies : Json → Option (List Enemy)
  | .arr items => decodeEach decodeEnemy items
  | _ => none

/-- Structural decoding of `GameState`: models the unchecked
`data.state as GameState` cast of `deserializeState`. -/
def decodeGameState (j : Json) : Option GameState := do
  let tick ← getNumField j "tick"
  let paused ← getBoolField j "paused"
  let player ← (j.getField "player").bind decodePlayer
  let enemies ← (j.getField "enemies").bind decodeEnemies
  let inputMap ← (j.getField "inputMap").bind decodeInputMap
  let settings ← (j.getField "settings").bind decodeSettings
  pure ⟨tick, paused, player, enemies, inputMap, settings⟩

open Classical in
/-- Translation of `deserializeState` from `systems/save.ts`.  The argument models the
result of `JSON.parse`: `none` when the input is not valid JSON (the
`catch` branch returns null), `some j` for the parsed value.  Returns
null (`none`) unless the value is truthy, carries a numeric `version`
field equal to 1, and has a truthy `state` field, in which case it
returns the embedded state. -/
noncomputable def deserializeState (input : Option Json) : Option GameState :=
  match input with
  | none => none
  | some data =>
    if data.isFalsy then none
    else
      match data.getField "version" with
      | some (.num v) =>
        if v = 1 then
          match data.getField "state" with
          | some st => if st.isFalsy then none else decodeGameState st
          | none => none
        else none
      | _ => none

/-- Translation of `getCurrentVersion` from `systems/save.ts`. -/
def getCurrentVersion : ℕ := 1

end Game

/-- C2: the RRF fused score of a chunk is the sum of `1/(k_rrf + rank)`
over exactly those strategies whose ranked list contains the chunk (absent
strategies contribute nothing), with `k_rrf = 60`; in the two-strategy
scenario where X is rank 1 in strategy 1 and rank 3 in strategy 2 while Y
is rank 2 in strategy 1 and absent from strategy 2, `RRF(X) = 1/61 + 1/63`,
`RRF(Y) = 1/62`, and X outranks Y. -/
theorem C2_rrf_formula_and_scenario :
    (∀ (lists : List (List String)) (c : String),
      Rag.reciprocal_rank_fusion Rag.kRRF lists c =
        ((lists.filter (fun l => c ∈ l)).map
          (fun l => Rag.rrfContribution Rag.kRRF l c)).sum) ∧
    Rag.kRRF = 60 ∧
    Rag.reciprocal_rank_fusion Rag.kRRF [["X", "Y"], ["A", "B", "X"]] "X" =
      1 / 61 + 1 / 63 ∧
    Rag.reciprocal_rank_fusion Rag.kRRF [["X", "Y"], ["A", "B", "X"]] "Y" = 1 / 62 ∧
    Rag.reciprocal_rank_fusion Rag.kRRF [["X", "Y"], ["A", "B", "X"]] "Y" <
      Rag.reciprocal_rank_fusion Rag.kRRF [["X", "Y"], ["A", "B", "X"]] "X" := by
  have e1 : Rag.rankIn ["X", "Y"] "X" = some 1 := by decide
  have e2 : Rag.rankIn ["A", "B", "X"] "X" = some 3 := by decide
  have e3 : Rag.rankIn ["X", "Y"] "Y" = some 2 := by decide
  have e4 : Rag.rankIn ["A", "B", "X"] "Y" = none := by decide
  refine ⟨Rag.reciprocal_rank_fusion_eq_sum_filter Rag.kRRF, rfl, ?_, ?_, ?_⟩ <;>
    · simp only [Rag.reciprocal_rank_fusion, Rag.rrfContribution, Rag.kRRF,
        List.map_cons, List.map_nil, List.sum_cons, List.sum_nil, e1, e2, e3, e4]
      norm_num

namespace Game

lemma decodeVec2_encode (v : Vec2) : decodeVec2 (encodeVec2 v) = some v := rfl

lemma decodeEnemy_encode (e : Enemy) : decodeEnemy (encodeEnemy e) = some e := by
  cases e with
  | mk id pos speed hp maxHp st => cases st <;> rfl

lemma decodePlayer_encode (p : Player) : decodePlayer (encodePlayer p) = some p := rfl

lemma decodeSettings_encode (s : GameSettings) :
    decodeSettings (encodeSettings s) = some s := rfl

lemma decodeEach_map {α β : Type} (enc : α → β) (dec : β → Option α)
    (h : ∀ a, dec (enc a) = some a) :
    ∀ l : List α, decodeEach dec (l.map enc) = some l := by
  intro l
  induction l with
  | nil => rfl
  | cons a as ih => simp [decodeEach, h, ih]

lemma decodeBinding_encode (kv : String × String) :
    decodeBinding (kv.1, Json.str kv.2) = some kv := rfl

lemma decodeGameState_encode (s : GameState) :
    decodeGameState (encodeGameState s) = some s := by
  cases s with
  | mk tick paused player enemies inputMap settings =>
    have he : decodeEach decodeEnemy (enemies.map encodeEnemy) = some enemies :=
      decodeEach_map encodeEnemy decodeEnemy decodeEnemy_encode enemies
    have hb : decodeEach decodeBinding
        (inputMap.map (fun kv => (kv.1, Json.str kv.2))) = some inputMap := by
      have := decodeEach_map (fun kv : String × String => (kv.1, Json.str kv.2))
        decodeBinding decodeBinding_encode inputMap
      simpa using this
    simp [decodeGameState, encodeGameState, Json.getField, getNumField,
      getBoolField, Json.asNum, Json.asBool, decodeEnemies, decodeInputMap,
      decodePlayer_encode, decodeSettings_encode, he, hb, List.lookup]

end Game

/-- C8: the save/load round-trip restores the game state exactly:
`serializeState` wraps the state in a version-1 SaveData envelope with a
timestamp, and `deserializeState` applied to it returns the embedded
state; `deserializeState` returns null (none), never throwing, on input
that is not valid JSON, on input without a numeric `version` field, and
on input whose `version` is not 1. -/
theorem C8_save_load_roundtrip :
    (∀ (s : Game.GameState) (ts : ℝ),
      Game.deserializeState (some (Game.serializeState s ts)) = some s) ∧
    Game.deserializeState none = none ∧
    (∀ j : Game.Json, (∀ v : ℝ, j.getField "version" ≠ some (Game.Json.num v)) →
      Game.deserializeState (some j) = none) ∧
    (∀ (j : Game.Json) (v : ℝ), j.getField "version" = some (Game.Json.num v) →
      v ≠ 1 → Game.deserializeState (some j) = none) := by
  refine ⟨?_, rfl, ?_, ?_⟩
  · intro s ts
    have hver : (Game.serializeState s ts).getField "version" =
        some (Game.Json.num 1) := rfl
    have hst : (Game.serializeState s ts).getField "state" =
        some (Game.encodeGameState s) := by
      simp [Game.serializeState, Game.Json.getField, List.lookup]
    have hfalsy : (Game.encodeGameState s).isFalsy = false := by
      rw [Game.encodeGameState, Game.Json.isFalsy]
    rw [Game.deserializeState]
    rw [show (Game.serializeState s ts).isFalsy = false from rfl]
    simp only [Bool.false_eq_true, if_false, hver, if_pos rfl, hst, hfalsy,
      Game.decodeGameState_encode s]
    simp
  · intro j hv
    rw [Game.deserializeState]
    by_cases hf : j.isFalsy = true
    · rw [if_pos hf]
    · rw [if_neg hf]
      cases hj : j.getField "version" with
      | none => rfl
      | some jv =>
        cases jv with
        | num v => exact absurd hj (hv v)
        | null => rfl
        | bool b => rfl
        | str a => rfl
        | arr xs => rfl
        | obj fs => rfl
  · intro j v hver hne
    rw [Game.deserializeState]
    by_cases hf : j.isFalsy = true
    · rw [if_pos hf]
    · rw [if_neg hf]
      simp only [hver]
      rw [if_neg hne]

/-- Witness for C8: round trip on the initial state, and rejection of a
version-2 envelope. -/
theorem C8_save_load_roundtrip_witness :
    Game.deserializeState
        (some (Game.serializeState Game.createInitialState 0)) =
      some Game.createInitialState ∧
    Game.deserializeState
        (some (Game.Json.obj [("version", Game.Json.num 2)])) = none :=
  ⟨C8_save_load_roundtrip.1 Game.createInitialState 0,
    C8_save_load_roundtrip.2.2.2
      (Game.Json.obj [("version", Game.Json.num 2)]) 2 rfl (by norm_num)⟩

/-- C9: while the game is paused, the simulation-advancing operations are
no-ops returning the state unchanged: the reducer's TICK action, addScore
for every point value, and updateAllEnemies. -/
theorem C9_paused_operations_are_noops (s : Game.GameState)
    (h : s.paused = true) :
    Game.gameReducer s Game.GameAction.tick = s ∧
    (∀ points : ℝ, Game.addScore s points = s) ∧
    Game.updateAllEnemies s = s := by
  refine ⟨?_, fun points => ?_, ?_⟩ <;>
    simp [Game.gameReducer, Game.addScore, Game.updateAllEnemies, h]

/-- Witness for C9 on the paused initial state. -/
theorem C9_paused_operations_are_noops_witness :
    Game.gameReducer (Game.pauseGame Game.createInitialState)
        Game.GameAction.tick = Game.pauseGame Game.createInitialState ∧
    Game.addScore (Game.pauseGame Game.createInitialState) 999 =
      Game.pauseGame Game.createInitialState ∧
    Game.updateAllEnemies (Game.pauseGame Game.createInitialState) =
      Game.pauseGame Game.createInitialState := by
  have h := C9_paused_operations_are_noops
    (Game.pauseGame Game.createInitialState) rfl
  exact ⟨h.1, h.2.1 999, h.2.2⟩

/-- C10: the two score-adding entry points disagree on pause semantics:
while paused, `addScore` leaves the state (hence the score) unchanged, but
the reducer's ADD_SCORE action still adds the points to the player's score
(its branch never consults the paused flag). -/
theorem C10_add_score_pause_disagreement (s : Game.GameState) (points : ℝ)
    (h : s.paused = true) :
    Game.addScore s points = s ∧
    (Game.gameReducer s (Game.GameAction.addScore points)).player.score =
      s.player.score + points := by
  constructor
  · simp [Game.addScore, h]
  · rfl

/-- Witness for C10 on the paused initial state with 999 points. -/
theorem C10_add_score_pause_disagreement_witness :
    Game.addScore (Game.pauseGame Game.createInitialState) 999 =
      Game.pauseGame Game.createInitialState ∧
    (Game.gameReducer (Game.pauseGame Game.createInitialState)
        (Game.GameAction.addScore 999)).player.score =
      (Game.pauseGame Game.createInitialState).player.score + 999 :=
  C10_add_score_pause_disagreement
    (Game.pauseGame Game.createInitialState) 999 rfl

